import Mathlib

/-!
# suyac / morc command layer: a shallow embedding

This development embeds the command functions of the repository
(`cmd/suyac/commands/send.go`, `cmd/suyac/commands/init.go`,
`cmd/morc/commands/flows/flows.go`, `cmd/morc/cmdio/cmdio.go`) as Lean
functions and proves properties of them.

Conventions of the embedding:

* A Go `string` is a Lean `String`.  Go compares strings byte by byte; on
  well-formed UTF-8 text that order is the code-point order, which is the
  lexicographic order of `String.data` used below.
* A Go `map[string]T` is a `GoMap T`: a list of key/value pairs with pairwise
  distinct keys.  The order of the list is the order in which a `range` loop
  over the map happens to enumerate it; Go leaves that order unspecified, so
  statements about "whatever enumeration order" quantify over maps whose entry
  lists are permutations of one another.
* A Go `error` is the text of its message; `nil` is `none`.
* Types and functions of package `suyac` / `morc` that are declared outside
  the embedded files are parameters (`Decls`, `Lib`).
* Effects are explicit: a command returns a record of what it did (the call
  made to `Send`, the project as it stands at return, what was handed to the
  persistence layer, the text printed).
-/

namespace Suyac

/-! ## Strings and `sort.Strings` -/

/-- Go's `a <= b` on strings: lexicographic comparison of the contents. -/
def strLE (a b : String) : Prop := a.data ≤ b.data

/-- Go's `a < b` on strings. -/
def strLT (a b : String) : Prop := a.data < b.data

instance strLE_decidable : DecidableRel strLE := fun a b =>
  inferInstanceAs (Decidable (a.data ≤ b.data))

instance strLT_decidable : DecidableRel strLT := fun a b =>
  inferInstanceAs (Decidable (a.data < b.data))

instance strLE_total : IsTotal String strLE := ⟨fun a b => le_total a.data b.data⟩

instance strLE_trans : IsTrans String strLE :=
  ⟨fun _ _ _ h₁ h₂ => le_trans (α := List Char) h₁ h₂⟩

instance strLE_antisymm : IsAntisymm String strLE :=
  ⟨fun _ _ h₁ h₂ => String.ext (le_antisymm (α := List Char) h₁ h₂)⟩

/-- Go's `sort.Strings`: the argument rearranged into increasing order.  Equal
strings are indistinguishable, so every sorting algorithm returns this list. -/
def sortStrings (l : List String) : List String := l.insertionSort strLE

/-! ## Go maps with string keys -/

/-- A `map[string]α`; `entries` is in `range` enumeration order. -/
structure GoMap (α : Type) where
  entries : List (String × α)
  nodup : (entries.map Prod.fst).Nodup

namespace GoMap

variable {α : Type}

/-- The empty map (also the reading behaviour of a nil map). -/
def empty : GoMap α := ⟨[], List.nodup_nil⟩

/-- Keys in the order a `for k := range m` loop visits them. -/
def keys (m : GoMap α) : List String := m.entries.map Prod.fst

/-- Values in enumeration order. -/
def values (m : GoMap α) : List α := m.entries.map Prod.snd

/-- The builtin `len(m)`. -/
def len (m : GoMap α) : Nat := m.entries.length

/-- The two-result lookup `v, ok := m[k]`. -/
def get? (m : GoMap α) (k : String) : Option α := m.entries.lookup k

/-- The one-result lookup `m[k]`, which yields the zero value on a miss. -/
def getD (m : GoMap α) (k : String) (zero : α) : α := (m.get? k).getD zero

/-- Assignment to a key on the underlying entry list. -/
def setList : List (String × α) → String → α → List (String × α)
  | [], k, v => [(k, v)]
  | (k', v') :: rest, k, v =>
    if k' = k then (k', v) :: rest else (k', v') :: setList rest k v

/-- The assignment `m[k] = v`. -/
def set (m : GoMap α) (k : String) (v : α) : GoMap α :=
  ⟨setList m.entries k v, by
    have key : ∀ l : List (String × α), (setList l k v).map Prod.fst =
        if k ∈ l.map Prod.fst then l.map Prod.fst else l.map Prod.fst ++ [k] := by
      intro l
      induction l with
      | nil => simp [setList]
      | cons p rest ih =>
        obtain ⟨k', v'⟩ := p
        by_cases h : k' = k
        · simp [setList, h]
        · have h' : ¬ k = k' := fun e => h e.symm
          simp only [setList, h, if_false, List.map_cons, ih, List.mem_cons, h', false_or]
          split <;> simp
    rw [key]
    split
    · exact m.nodup
    · rename_i hk
      exact List.Nodup.append m.nodup (List.nodup_singleton k) (by simpa using hk)⟩

end GoMap

/-! ## `cmdio` -/

namespace cmdio

/-- The method `IO.CountOf(count, word, suffixes...)`.  The receiver is not used
by the body and is left out. -/
def CountOf (count : Int) (word : String) (suffixes : List String) : String :=
  let pluralSuf := "s"
  let singularSuf := ""
  let pluralSuf := if h : 0 < suffixes.length then suffixes[0] else pluralSuf
  let singularSuf :=
    if 0 < suffixes.length then
      if h : 1 < suffixes.length then suffixes[1] else singularSuf
    else singularSuf
  let plural := word ++ pluralSuf
  let singular := word ++ singularSuf
  let desc := if count = 1 then singular else plural
  toString count ++ " " ++ desc

end cmdio

/-- The streams of a command (`cmdio.IO`), each as the text written to it so
far. -/
structure cmdio.Streams where
  Out : String
  Err : String

/-- The method `Println` with one string argument: the text and a newline go to
the output stream. -/
def cmdio.Streams.Println (io : cmdio.Streams) (s : String) : cmdio.Streams :=
  { io with Out := io.Out ++ s ++ "\n" }

/-- The method `Printf`, given the text its format and arguments render to. -/
def cmdio.Streams.Printf (io : cmdio.Streams) (rendered : String) : cmdio.Streams :=
  { io with Out := io.Out ++ rendered }

/-! ## Declarations of the root package that the commands use -/

/-- Types of package `suyac` / `morc` (and of the standard library) whose
declarations lie outside the embedded files.  The commands only move values of
these types around. -/
structure Decls where
  /-- The type `[]byte` of a request body. -/
  Bytes : Type
  /-- The type `http.Header`. -/
  Header : Type
  /-- The capture specification type `VarScraper`. -/
  VarScraper : Type
  /-- The zero value of `VarScraper`. -/
  zeroVarScraper : VarScraper
  /-- The type `OutputControl`. -/
  OutputControl : Type
  /-- The type `time.Time`. -/
  Time : Type
  /-- The request snapshot held by a send result. -/
  Request : Type
  /-- The response snapshot held by a send result. -/
  Response : Type
  /-- The captured values held by a send result. -/
  VarCaptures : Type
  /-- The persisted variable store type `VarStore`. -/
  VarStore : Type
  /-- Lookup in a `VarStore`: the value bound to a name, if any. -/
  VarStoreGet : VarStore → String → Option String
  /-- The type `Session`. -/
  Session : Type
  /-- The type of one step of a flow. -/
  FlowStep : Type

/-- A `RequestTemplate`, with the fields the commands and the test use. -/
structure RequestTemplate (D : Decls) where
  Name : String
  Method : String
  URL : String
  Body : D.Bytes
  Headers : D.Header
  Captures : GoMap D.VarScraper

/-- A `Flow`. -/
structure Flow (D : Decls) where
  Name : String
  Steps : List D.FlowStep

/-- The zero value of `Flow`, which a map lookup yields on a miss. -/
def Flow.zero (D : Decls) : Flow D := { Name := "", Steps := [] }

/-- A `HistoryEntry`. -/
structure HistoryEntry (D : Decls) where
  Template : String
  ReqTime : D.Time
  RespTime : D.Time
  Request : D.Request
  Response : D.Response
  Captures : D.VarCaptures

/-- The project `Settings` (`Config`); `CookieLifetime` is a `time.Duration`. -/
structure Settings where
  CookieLifetime : Int
  ProjFile : String
  HistFile : String
  SeshFile : String
  RecordHistory : Bool

/-- A `Project`. -/
structure Project (D : Decls) where
  Name : String
  Templates : GoMap (RequestTemplate D)
  Flows : GoMap (Flow D)
  Vars : D.VarStore
  History : List (HistoryEntry D)
  Session : D.Session
  Config : Settings

/-- The options `suyac.SendOptions` as built by `invokeSend`. -/
structure SendOptions (D : Decls) where
  Vars : GoMap String
  Body : D.Bytes
  Headers : D.Header
  Output : D.OutputControl
  Captures : List D.VarScraper

/-- The fields of the result of `suyac.Send` that `invokeSend` reads. -/
structure SendResult (D : Decls) where
  SendTime : D.Time
  RecvTime : D.Time
  Request : D.Request
  Response : D.Response
  Captures : D.VarCaptures

/-- Functions declared outside the embedded files: of the standard library
(`strings.ToLower`, the `%q` verb) and of the root package. -/
structure Lib (D : Decls) where
  /-- The function `strings.ToLower`. -/
  ToLower : String → String
  /-- The rendering of a string by the `%q` verb. -/
  Quote : String → String
  /-- The function `LoadProjectFromDisk(path, all)`. -/
  LoadProjectFromDisk : String → Bool → Except String (Project D)
  /-- The function `Send(method, url, varSymbol, opts)`. -/
  Send : String → String → String → SendOptions D → Except String (SendResult D)
  /-- The method `Project.PersistHistoryToDisk`. -/
  PersistHistoryToDisk : Project D → Option String
  /-- The function `gatherRequestOutputFlags(cmdID)`. -/
  gatherRequestOutputFlags : String → Except String D.OutputControl
  /-- The method `Project.IsExecableFlow(name)`. -/
  IsExecableFlow : Project D → String → Bool

/-! ## `cmd/suyac/commands/send.go` -/

/-- The struct `sendOptions`.  A nil `oneTimeVars` reads like the empty map. -/
structure sendOptions (D : Decls) where
  projFile : String
  oneTimeVars : GoMap String
  outputCtrl : D.OutputControl

/-- First occurrence of `sep` in a text: what stands before it and after it. -/
def cutAt (sep : Char) : List Char → Option (List Char × List Char)
  | [] => none
  | c :: cs =>
    if c = sep then some ([], cs)
    else (cutAt sep cs).map (fun p => (c :: p.1, p.2))

/-- The call `strings.SplitN(s, sep, 2)` for a one-character separator: `s`
alone when `sep` does not occur in it, otherwise the two parts around the first
occurrence. -/
def SplitN2 (s : String) (sep : Char) : List String :=
  match cutAt sep s.data with
  | none => [s]
  | some (a, b) => [String.mk a, String.mk b]

/-- The loop `for idx, v := range flagVars` of `sendFlagsToOptions`, from
position `idx` on, with the map built so far. -/
def varsLoop {D : Decls} (L : Lib D) :
    List String → Nat → GoMap String → Except String (GoMap String)
  | [], _, oneTimeVars => .ok oneTimeVars
  | v :: rest, idx, oneTimeVars =>
    match SplitN2 v ':' with
    | [name, value] => varsLoop L rest (idx + 1) (oneTimeVars.set name value)
    | _ =>
      .error ("var #" ++ toString (idx + 1) ++ " (" ++ L.Quote v ++
        ") is not in format key:value")

/-- The function `sendFlagsToOptions`, with the package-level flag variables
`flagProjectFile` and `flagVars` as arguments. -/
def sendFlagsToOptions {D : Decls} (L : Lib D) (flagProjectFile : String)
    (flagVars : List String) : Except String (sendOptions D) :=
  if flagProjectFile = "" then .error "project file is set to empty string"
  else
    match L.gatherRequestOutputFlags "suyac send" with
    | .error err => .error err
    | .ok outputCtrl =>
      if flagVars.length > 0 then
        match varsLoop L flagVars 0 GoMap.empty with
        | .error err => .error err
        | .ok oneTimeVars =>
          .ok { projFile := flagProjectFile, oneTimeVars := oneTimeVars,
                outputCtrl := outputCtrl }
      else
        .ok { projFile := flagProjectFile, oneTimeVars := GoMap.empty,
              outputCtrl := outputCtrl }

/-- One call of `suyac.Send`, by its arguments. -/
structure SendCall (D : Decls) where
  method : String
  url : String
  varSymbol : String
  opts : SendOptions D

/-- What a run of `invokeSend` did: the error it returned, the call it made to
`Send` (if it made one), the project value `p` as it stands at return (if it was
loaded), and the project handed to `PersistHistoryToDisk` (if it was called). -/
structure SendRun (D : Decls) where
  err : Option String
  sent : Option (SendCall D)
  project : Option (Project D)
  persisted : Option (Project D)

/-- The capture list `sendOpts.Captures` that `invokeSend` builds from a
template: the keys of `tmpl.Captures` are collected by a `range` loop, sorted
with `sort.Strings`, and each is looked up again in the map. -/
def sendCaptures {D : Decls} (tmpl : RequestTemplate D) : List D.VarScraper :=
  let capVarNames := tmpl.Captures.keys
  let capVarNames := sortStrings capVarNames
  capVarNames.map (fun k => tmpl.Captures.getD k D.zeroVarScraper)

/-- The value `sendOpts` that `invokeSend` passes to `Send`. -/
def sendOptsOf {D : Decls} (tmpl : RequestTemplate D) (opts : sendOptions D) :
    SendOptions D :=
  { Vars := opts.oneTimeVars
    Body := tmpl.Body
    Headers := tmpl.Headers
    Output := opts.outputCtrl
    Captures := sendCaptures tmpl }

/-- The call `suyac.Send(tmpl.Method, tmpl.URL, varSymbol, sendOpts)` that
`invokeSend` makes, with `varSymbol` set to the dollar sign. -/
def sendCallOf {D : Decls} (tmpl : RequestTemplate D) (opts : sendOptions D) :
    SendCall D :=
  let varSymbol := "$"
  { method := tmpl.Method, url := tmpl.URL, varSymbol := varSymbol,
    opts := sendOptsOf tmpl opts }

/-- The literal `suyac.HistoryEntry` that `invokeSend` builds from the template
and the result of `Send`. -/
def historyEntryOf {D : Decls} (tmpl : RequestTemplate D) (result : SendResult D) :
    HistoryEntry D :=
  { Template := tmpl.Name
    ReqTime := result.SendTime
    RespTime := result.RecvTime
    Request := result.Request
    Response := result.Response
    Captures := result.Captures }

/-- The function `invokeSend`. -/
def invokeSend {D : Decls} (L : Lib D) (reqName : String) (opts : sendOptions D) :
    SendRun D :=
  match L.LoadProjectFromDisk opts.projFile true with
  | .error err => { err := some err, sent := none, project := none, persisted := none }
  | .ok p =>
    let reqName := L.ToLower reqName
    match p.Templates.get? reqName with
    | none =>
      { err := some ("no request template " ++ reqName)
        sent := none, project := some p, persisted := none }
    | some tmpl =>
      if tmpl.Method = "" then
        { err := some ("request template " ++ reqName ++ " has no method set")
          sent := none, project := some p, persisted := none }
      else if tmpl.URL = "" then
        { err := some ("request template " ++ reqName ++ " has no URL set")
          sent := none, project := some p, persisted := none }
      else
        let call := sendCallOf tmpl opts
        match L.Send call.method call.url call.varSymbol call.opts with
        | .error err =>
          { err := some err, sent := some call, project := some p, persisted := none }
        | .ok result =>
          if p.Config.RecordHistory then
            let entry := historyEntryOf tmpl result
            let p := { p with History := p.History ++ [entry] }
            { err := L.PersistHistoryToDisk p, sent := some call, project := some p,
              persisted := some p }
          else
            { err := none, sent := some call, project := some p, persisted := none }

/-! ## `cmd/morc/commands/flows/flows.go` -/

/-- The type `flowAction`. -/
inductive flowAction where
  | flowActionList
  | flowActionShow
  | flowActionNew
  | flowActionDelete
  | flowActionGet
  | flowActionEdit
  deriving DecidableEq, Repr

/-- The struct `flowOptions`. -/
structure flowOptions where
  projFile : String
  action : flowAction

/-- The package-level flag variables of the flows command, with
`commonflags.ProjectFile`. -/
structure FlowFlags where
  ProjectFile : String
  flagFlowNew : Bool
  flagFlowDelete : Bool
  flagFlowStepRemovals : List Int
  flagFlowStepAdds : List String
  flagFlowStepMoves : List String

/-- What a run of the flows command did: the error returned, the streams after
it, the project value at return (if loaded), and the project written back to
disk.  No function of `flows.go` writes a project, so `saved` is always
`none`. -/
structure FlowRun (D : Decls) where
  err : Option String
  io : cmdio.Streams
  project : Option (Project D)
  saved : Option (Project D)

/-- The line `invokeFlowsList` prints for the flow stored under `name`. -/
def flowLine {D : Decls} (L : Lib D) (p : Project D) (name : String) : String :=
  let f := p.Flows.getD name (Flow.zero D)
  let reqS := if f.Steps.length = 1 then "" else "s"
  let notExecableBang := if !L.IsExecableFlow p name then "!" else ""
  f.Name ++ ":" ++ notExecableBang ++ " " ++ toString f.Steps.length ++ " request" ++
    reqS ++ "\n"

/-- The function `invokeFlowsList`. -/
def invokeFlowsList {D : Decls} (L : Lib D) (io : cmdio.Streams) (opts : flowOptions) :
    FlowRun D :=
  match L.LoadProjectFromDisk opts.projFile false with
  | .error err => { err := some err, io := io, project := none, saved := none }
  | .ok p =>
    let io :=
      if p.Flows.len = 0 then io.Println "(none)"
      else
        let sortedNames := p.Flows.keys
        let sortedNames := sortStrings sortedNames
        sortedNames.foldl (fun io name => io.Printf (flowLine L p name)) io
    { err := none, io := io, project := some p, saved := none }

/-- The `RunE` function of `FlowCmd`.  It runs after cobra has checked
`Args: cobra.NoArgs`, so `args` is empty when it is reached; the step-mutation
flags are declared but no statement of the body reads them. -/
def FlowCmd_RunE {D : Decls} (L : Lib D) (flags : FlowFlags) (_args : List String)
    (io : cmdio.Streams) : FlowRun D :=
  let opts : flowOptions := { projFile := flags.ProjectFile, action := .flowActionList }
  if opts.projFile = "" then
    { err := some "project file is set to empty string", io := io, project := none,
      saved := none }
  else invokeFlowsList L io opts

/-! ## A worked example -/

/-- A concrete choice of the outside types, in which every value is carried as
text or a number. -/
@[reducible] def D0 : Decls :=
  { Bytes := String
    Header := List (String × String)
    VarScraper := String
    zeroVarScraper := ""
    OutputControl := Bool
    Time := Nat
    Request := String
    Response := String
    VarCaptures := List (String × String)
    VarStore := List (String × String)
    VarStoreGet := fun store name => store.lookup name
    Session := Unit
    FlowStep := String }

/-- The template of the repository's test `Test_Send`, `testreq` with method
GET and URL "/", here with two captures declared as `b` then `a`. -/
def testreq : RequestTemplate D0 :=
  { Name := "testreq", Method := "GET", URL := "/", Body := "", Headers := []
    Captures := ⟨[("b", "scrape b"), ("a", "scrape a")], by decide⟩ }

/-- A template without a method. -/
def noMethodReq : RequestTemplate D0 :=
  { Name := "nomethod", Method := "", URL := "/x", Body := "", Headers := []
    Captures := GoMap.empty }

/-- A history entry recorded by an earlier send. -/
def oldEntry : HistoryEntry D0 :=
  { Template := "testreq", ReqTime := 1, RespTime := 2, Request := "GET /",
    Response := "200 OK", Captures := [] }

/-- A project with two templates, a flow `solo` of one step and a flow `f` of
five steps (steps are template names), one persisted variable and one history
entry; history recording is on. -/
def exampleProject : Project D0 :=
  { Name := "example"
    Templates := ⟨[("testreq", testreq), ("nomethod", noMethodReq)], by decide⟩
    Flows := ⟨[("solo", { Name := "solo", Steps := ["testreq"] }),
               ("f", { Name := "f", Steps := ["A", "B", "C", "D", "E"] })], by decide⟩
    Vars := [("HOST", "example.org")]
    History := [oldEntry]
    Session := ()
    Config := { CookieLifetime := 86400000000000, ProjFile := ".suyac/project.json",
                HistFile := ".suyac/history.json", SeshFile := ".suyac/session.json",
                RecordHistory := true } }

/-- An outside world in which the project file holds `exampleProject`, every
send succeeds and every write succeeds.  Lower-casing is the ASCII one, and a
flow is execable when each of its steps names a template of the project. -/
def exampleLib : Lib D0 :=
  { ToLower := fun s => String.mk (s.data.map Char.toLower)
    Quote := fun s => "\"" ++ s ++ "\""
    LoadProjectFromDisk := fun _ _ => .ok exampleProject
    Send := fun method url _ _ =>
      .ok { SendTime := 10, RecvTime := 11, Request := method ++ " " ++ url,
            Response := "200 OK", Captures := [] }
    PersistHistoryToDisk := fun _ => none
    gatherRequestOutputFlags := fun _ => .ok false
    IsExecableFlow := fun p name =>
      (p.Flows.getD name (Flow.zero D0)).Steps.all
        (fun step => (p.Templates.get? step).isSome) }

/-- The same world, except that every send fails. -/
def failingLib : Lib D0 :=
  { exampleLib with Send := fun _ _ _ _ => .error "connection refused" }

/-- Send options without one-time variables. -/
def exampleOpts : sendOptions D0 :=
  { projFile := ".suyac/project.json", oneTimeVars := GoMap.empty, outputCtrl := false }

/-- The outside world `L`, except that every project read from disk has its
persisted variable store replaced by `vars`. -/
def Lib.withVars {D : Decls} (L : Lib D) (vars : D.VarStore) : Lib D :=
  { L with
    LoadProjectFromDisk := fun path all =>
      match L.LoadProjectFromDisk path all with
      | .error err => .error err
      | .ok p => .ok { p with Vars := vars } }

/-- Send options with the one-time variable `HOST` set to `localhost`. -/
def overrideOpts : sendOptions D0 :=
  { projFile := ".suyac/project.json"
    oneTimeVars := ⟨[("HOST", "localhost")], by decide⟩
    outputCtrl := false }

/-- The value that the arguments `vs` bind to `name` when each is read as
`name:value`, split at its first colon, and a later argument wins over an
earlier one.  This is the reading of the flag help, used to state what the loop
of `sendFlagsToOptions` computes. -/
def lastBinding : List String → String → Option String
  | [], _ => none
  | v :: rest, name =>
    match lastBinding rest name with
    | some value => some value
    | none =>
      match cutAt ':' v.data with
      | some (a, b) => if String.mk a = name then some (String.mk b) else none
      | none => none

/-- The given texts one after another. -/
def concatLines : List String → String
  | [] => ""
  | l :: ls => l ++ concatLines ls

/-- Options of the flows command for the example project file. -/
def exampleFlowOpts : flowOptions :=
  { projFile := ".suyac/project.json", action := .flowActionList }

/-- Both streams empty. -/
def emptyStreams : cmdio.Streams := { Out := "", Err := "" }

/-! ## The compound edit as the specification words it

The flag help of `--remove`, `--add` and `--move` and section 4.4 of the
specification describe a step-list edit: removals from the highest index to the
lowest, then additions from the lowest target index to the highest (an omitted
or too large index appends), then moves in the order given.  The definitions of
this section follow those words; they are compared with what `FlowCmd_RunE`
does. -/

/-- Removal of the step at `idx`; an index out of range fails. -/
def specRemove {α : Type} (steps : List α) (idx : Nat) : Option (List α) :=
  if idx < steps.length then some (steps.eraseIdx idx) else none

/-- Addition of step `x` at `idx`; an omitted index, or one beyond the current
length, appends. -/
def specAdd {α : Type} (steps : List α) (idx : Option Nat) (x : α) : List α :=
  match idx with
  | none => steps ++ [x]
  | some i => if i < steps.length then steps.take i ++ x :: steps.drop i else steps ++ [x]

/-- Move of the step at `src` to `dst`; an index out of range fails. -/
def specMove {α : Type} (steps : List α) (src dst : Nat) : Option (List α) :=
  if h : src < steps.length ∧ dst < steps.length then
    let x := steps[src]
    let others := steps.eraseIdx src
    some (others.take dst ++ x :: others.drop dst)
  else none

/-- The compound edit of the specification: removals highest index first, then
additions lowest target index first (those without an index last), then moves
in the order given. -/
def specCompoundEdit {α : Type} (steps : List α) (removals : List Nat)
    (additions : List (Option Nat × α)) (moves : List (Nat × Nat)) : Option (List α) :=
  let removals := removals.dedup.insertionSort (fun i j => j ≤ i)
  let indexed := (additions.filter (fun a => a.1.isSome)).insertionSort
    (fun a b => a.1.getD 0 ≤ b.1.getD 0)
  let appended := additions.filter (fun a => a.1.isNone)
  match removals.foldlM specRemove steps with
  | none => none
  | some afterRemovals =>
    let afterAdds := (indexed ++ appended).foldl (fun s a => specAdd s a.1 a.2) afterRemovals
    moves.foldlM (fun s m => specMove s m.1 m.2) afterAdds

/-- The flags of `flows --remove 3 --remove 1 --add 0:X --move 2:0` on the
example project file. -/
def editFlags : FlowFlags :=
  { ProjectFile := ".suyac/project.json"
    flagFlowNew := false
    flagFlowDelete := false
    flagFlowStepRemovals := [3, 1]
    flagFlowStepAdds := ["0:X"]
    flagFlowStepMoves := ["2:0"] }

/-! ## Theorems -/

theorem sortStrings_perm (l : List String) : (sortStrings l).Perm l :=
  List.perm_insertionSort strLE l

theorem sortStrings_sorted (l : List String) : (sortStrings l).Sorted strLE :=
  List.sorted_insertionSort strLE l

/-- Sorting does not depend on the order of the input. -/
theorem sortStrings_eq_of_perm {l₁ l₂ : List String} (h : l₁.Perm l₂) :
    sortStrings l₁ = sortStrings l₂ :=
  List.eq_of_perm_of_sorted
    ((sortStrings_perm l₁).trans (h.trans (sortStrings_perm l₂).symm))
    (sortStrings_sorted l₁) (sortStrings_sorted l₂)

/-- Sorting a list without repetitions gives a strictly increasing list. -/
theorem sortStrings_strict {l : List String} (h : l.Nodup) :
    (sortStrings l).Sorted strLT := by
  have hs := sortStrings_sorted l
  have hn : (sortStrings l).Nodup := (sortStrings_perm l).nodup_iff.mpr h
  unfold List.Sorted at hs ⊢
  refine (hs.and hn).imp ?_
  intro a b hab
  obtain ⟨hle, hne⟩ := hab
  exact lt_of_le_of_ne (α := List Char) hle (fun e => hne (String.ext e))

theorem lookup_eq_some_iff {α : Type} (l : List (String × α))
    (h : (l.map Prod.fst).Nodup) (k : String) (v : α) :
    l.lookup k = some v ↔ (k, v) ∈ l := by
  induction l with
  | nil => simp
  | cons p rest ih =>
    obtain ⟨k', v'⟩ := p
    simp only [List.map_cons, List.nodup_cons, List.mem_map, not_exists, not_and] at h
    by_cases hk : k = k'
    · subst hk
      have hnot : (k, v) ∉ rest := fun hm => h.1 (k, v) hm rfl
      simp [List.lookup, hnot, eq_comm]
    · have hb : (k == k') = false := by simpa using hk
      simp [List.lookup, hb, hk, ih h.2]

theorem GoMap.get?_eq_some_iff {α : Type} (m : GoMap α) (k : String) (v : α) :
    m.get? k = some v ↔ (k, v) ∈ m.entries :=
  lookup_eq_some_iff m.entries m.nodup k v

/-- Lookup does not depend on the enumeration order of a map. -/
theorem GoMap.get?_eq_of_perm {α : Type} (m m' : GoMap α)
    (h : m'.entries.Perm m.entries) (k : String) : m'.get? k = m.get? k := by
  apply Option.ext
  intro v
  simp only [Option.mem_def]
  rw [GoMap.get?_eq_some_iff, GoMap.get?_eq_some_iff]
  exact h.mem_iff

/-- Looking every key up again, in enumeration order, gives the values. -/
theorem GoMap.map_getD_keys {α : Type} (m : GoMap α) (zero : α) :
    m.keys.map (fun k => m.getD k zero) = m.values := by
  unfold GoMap.keys GoMap.values
  rw [List.map_map]
  apply List.map_congr_left
  intro e he
  have : m.get? e.1 = some e.2 := (m.get?_eq_some_iff e.1 e.2).mpr he
  simp [GoMap.getD, this]

/-- When `invokeSend` reaches `Send`: the project loaded, the template was
found under the lower-cased name, it has a method and a URL, and the call has
the arguments built from the template and the options. -/
theorem invokeSend_sent_iff {D : Decls} (L : Lib D) (reqName : String)
    (opts : sendOptions D) (call : SendCall D) :
    (invokeSend L reqName opts).sent = some call ↔
      ∃ (p : Project D) (tmpl : RequestTemplate D),
        L.LoadProjectFromDisk opts.projFile true = .ok p ∧
        p.Templates.get? (L.ToLower reqName) = some tmpl ∧
        tmpl.Method ≠ "" ∧ tmpl.URL ≠ "" ∧ call = sendCallOf tmpl opts := by
  unfold invokeSend
  cases hload : L.LoadProjectFromDisk opts.projFile true with
  | error e => simp
  | ok p =>
    cases hget : p.Templates.get? (L.ToLower reqName) with
    | none => simp [hget]
    | some tmpl =>
      by_cases hm : tmpl.Method = ""
      · simp [hget, hm]
      · by_cases hu : tmpl.URL = ""
        · simp [hget, hm, hu]
        · have hfin : (some (sendCallOf tmpl opts) = some call) ↔
              ∃ x, tmpl = x ∧ ¬ x.Method = "" ∧ ¬ x.URL = "" ∧ call = sendCallOf x opts := by
            constructor
            · intro h
              exact ⟨tmpl, rfl, hm, hu, (Option.some.inj h).symm⟩
            · rintro ⟨x, rfl, _, _, h⟩
              rw [h]
          cases hsend : L.Send (sendCallOf tmpl opts).method (sendCallOf tmpl opts).url
              (sendCallOf tmpl opts).varSymbol (sendCallOf tmpl opts).opts with
          | error e => simpa [hget, hm, hu, hsend] using hfin
          | ok result =>
            by_cases hr : p.Config.RecordHistory = true
            · simpa [hget, hm, hu, hsend, hr] using hfin
            · simpa [hget, hm, hu, hsend, hr] using hfin

/-- The capture list of a template: its keys sorted, each looked up. -/
theorem sendCaptures_spec {D : Decls} (tmpl : RequestTemplate D) :
    (sortStrings tmpl.Captures.keys).Perm tmpl.Captures.keys ∧
    (sortStrings tmpl.Captures.keys).Sorted strLT ∧
    List.Forall₂ (fun k c => tmpl.Captures.get? k = some c)
      (sortStrings tmpl.Captures.keys) (sendCaptures tmpl) ∧
    (sendCaptures tmpl).Perm tmpl.Captures.values := by
  refine ⟨sortStrings_perm _, sortStrings_strict tmpl.Captures.nodup, ?_, ?_⟩
  · unfold sendCaptures
    rw [List.forall₂_map_right_iff, List.forall₂_same]
    intro k hk
    have hk' : k ∈ tmpl.Captures.keys := (sortStrings_perm _).mem_iff.mp hk
    obtain ⟨e, he, rfl⟩ := List.mem_map.mp hk'
    have : tmpl.Captures.get? e.1 = some e.2 :=
      (tmpl.Captures.get?_eq_some_iff e.1 e.2).mpr he
    simp [GoMap.getD, this]
  · unfold sendCaptures
    rw [← GoMap.map_getD_keys tmpl.Captures D.zeroVarScraper]
    exact (sortStrings_perm _).map _

/-- The capture list does not depend on the enumeration order of the map. -/
theorem sendCaptures_eq_of_perm {D : Decls} (tmpl tmpl' : RequestTemplate D)
    (h : tmpl'.Captures.entries.Perm tmpl.Captures.entries) :
    sendCaptures tmpl' = sendCaptures tmpl := by
  unfold sendCaptures
  have hk : sortStrings tmpl'.Captures.keys = sortStrings tmpl.Captures.keys :=
    sortStrings_eq_of_perm (h.map Prod.fst)
  simp only [hk]
  apply List.map_congr_left
  intro k _
  simp [GoMap.getD, GoMap.get?_eq_of_perm tmpl.Captures tmpl'.Captures h k]

/-- Claim C1: whenever `invokeSend` calls `Send`, the capture specs in
`sendOpts.Captures` are those of the template found under the lower-cased name,
listed in strictly ascending lexical order of their variable names (the keys of
the capture mapping): the list pairs off with the sorted key list, it is a
rearrangement of the mapping's values (each capture exactly once), and any
other enumeration order of the same mapping yields the same list. -/
theorem invokeSend_captures_sorted {D : Decls} (L : Lib D) (reqName : String)
    (opts : sendOptions D) (call : SendCall D)
    (h : (invokeSend L reqName opts).sent = some call) :
    ∃ (p : Project D) (tmpl : RequestTemplate D) (names : List String),
      L.LoadProjectFromDisk opts.projFile true = .ok p ∧
      p.Templates.get? (L.ToLower reqName) = some tmpl ∧
      names.Perm tmpl.Captures.keys ∧
      names.Sorted strLT ∧
      List.Forall₂ (fun k c => tmpl.Captures.get? k = some c) names call.opts.Captures ∧
      call.opts.Captures.Perm tmpl.Captures.values ∧
      call.opts.Captures.length = tmpl.Captures.len ∧
      ∀ tmpl' : RequestTemplate D,
        tmpl'.Captures.entries.Perm tmpl.Captures.entries →
          sendCaptures tmpl' = call.opts.Captures := by
  obtain ⟨p, tmpl, hload, hget, _, _, hcall⟩ := (invokeSend_sent_iff L reqName opts call).mp h
  subst hcall
  obtain ⟨h₁, h₂, h₃, h₄⟩ := sendCaptures_spec tmpl
  refine ⟨p, tmpl, sortStrings tmpl.Captures.keys, hload, hget, h₁, h₂, h₃, h₄, ?_, ?_⟩
  · simpa [GoMap.values, GoMap.len, sendOptsOf, sendCallOf] using h₄.length_eq
  · intro tmpl' hp
    exact sendCaptures_eq_of_perm tmpl tmpl' hp

/-- Witness for C1: the template `testreq` declares its captures as `b` then
`a`; the call to `Send` lists the capture of `a` first, then that of `b`. -/
theorem invokeSend_captures_sorted_witness :
    (invokeSend exampleLib "TestReq" exampleOpts).sent =
        some { method := "GET", url := "/", varSymbol := "$",
               opts := { Vars := GoMap.empty, Body := "", Headers := [], Output := false,
                         Captures := ["scrape a", "scrape b"] } } ∧
      ∃ (p : Project D0) (tmpl : RequestTemplate D0) (names : List String),
        exampleLib.LoadProjectFromDisk exampleOpts.projFile true = .ok p ∧
        p.Templates.get? (exampleLib.ToLower "TestReq") = some tmpl ∧
        names.Perm tmpl.Captures.keys ∧
        names.Sorted strLT ∧
        List.Forall₂ (fun k c => tmpl.Captures.get? k = some c) names
          ["scrape a", "scrape b"] ∧
        List.Perm ["scrape a", "scrape b"] tmpl.Captures.values ∧
        List.length ["scrape a", "scrape b"] = tmpl.Captures.len ∧
        ∀ tmpl' : RequestTemplate D0,
          tmpl'.Captures.entries.Perm tmpl.Captures.entries →
            sendCaptures tmpl' = ["scrape a", "scrape b"] :=
  ⟨by rfl, invokeSend_captures_sorted exampleLib "TestReq" exampleOpts _ (by rfl)⟩

/-! ### The paths through `invokeSend` -/

theorem invokeSend_not_found {D : Decls} (L : Lib D) (reqName : String)
    (opts : sendOptions D) (p : Project D)
    (hload : L.LoadProjectFromDisk opts.projFile true = .ok p)
    (hget : p.Templates.get? (L.ToLower reqName) = none) :
    invokeSend L reqName opts =
      { err := some ("no request template " ++ L.ToLower reqName)
        sent := none, project := some p, persisted := none } := by
  simp [invokeSend, hload, hget]

theorem invokeSend_no_method {D : Decls} (L : Lib D) (reqName : String)
    (opts : sendOptions D) (p : Project D) (tmpl : RequestTemplate D)
    (hload : L.LoadProjectFromDisk opts.projFile true = .ok p)
    (hget : p.Templates.get? (L.ToLower reqName) = some tmpl)
    (hm : tmpl.Method = "") :
    invokeSend L reqName opts =
      { err := some ("request template " ++ L.ToLower reqName ++ " has no method set")
        sent := none, project := some p, persisted := none } := by
  simp [invokeSend, hload, hget, hm]

theorem invokeSend_no_url {D : Decls} (L : Lib D) (reqName : String)
    (opts : sendOptions D) (p : Project D) (tmpl : RequestTemplate D)
    (hload : L.LoadProjectFromDisk opts.projFile true = .ok p)
    (hget : p.Templates.get? (L.ToLower reqName) = some tmpl)
    (hm : tmpl.Method ≠ "") (hu : tmpl.URL = "") :
    invokeSend L reqName opts =
      { err := some ("request template " ++ L.ToLower reqName ++ " has no URL set")
        sent := none, project := some p, persisted := none } := by
  simp [invokeSend, hload, hget, hm, hu]

theorem invokeSend_send_failed {D : Decls} (L : Lib D) (reqName : String)
    (opts : sendOptions D) (p : Project D) (tmpl : RequestTemplate D) (e : String)
    (hload : L.LoadProjectFromDisk opts.projFile true = .ok p)
    (hget : p.Templates.get? (L.ToLower reqName) = some tmpl)
    (hm : tmpl.Method ≠ "") (hu : tmpl.URL ≠ "")
    (hsend : L.Send (sendCallOf tmpl opts).method (sendCallOf tmpl opts).url
      (sendCallOf tmpl opts).varSymbol (sendCallOf tmpl opts).opts = .error e) :
    invokeSend L reqName opts =
      { err := some e, sent := some (sendCallOf tmpl opts), project := some p,
        persisted := none } := by
  simp [invokeSend, hload, hget, hm, hu, hsend]

theorem invokeSend_send_ok {D : Decls} (L : Lib D) (reqName : String)
    (opts : sendOptions D) (p : Project D) (tmpl : RequestTemplate D)
    (result : SendResult D)
    (hload : L.LoadProjectFromDisk opts.projFile true = .ok p)
    (hget : p.Templates.get? (L.ToLower reqName) = some tmpl)
    (hm : tmpl.Method ≠ "") (hu : tmpl.URL ≠ "")
    (hsend : L.Send (sendCallOf tmpl opts).method (sendCallOf tmpl opts).url
      (sendCallOf tmpl opts).varSymbol (sendCallOf tmpl opts).opts = .ok result) :
    invokeSend L reqName opts =
      if p.Config.RecordHistory = true then
        { err := L.PersistHistoryToDisk
            { p with History := p.History ++ [historyEntryOf tmpl result] }
          sent := some (sendCallOf tmpl opts)
          project := some { p with History := p.History ++ [historyEntryOf tmpl result] }
          persisted := some { p with History := p.History ++ [historyEntryOf tmpl result] } }
      else
        { err := none, sent := some (sendCallOf tmpl opts), project := some p,
          persisted := none } := by
  simp [invokeSend, hload, hget, hm, hu, hsend]

/-- Claim C3: for a loaded project, `invokeSend` returns an error without
calling `Send` and without touching the history (the project is as loaded and
nothing is handed to the persistence layer) if and only if the lower-cased name
is not a key of the templates, or the template found has an empty method or an
empty URL; the error is then the matching validation message.  A template that
is found with a method and a URL always reaches `Send`, with its method and URL
as arguments. -/
theorem invokeSend_validation {D : Decls} (L : Lib D) (reqName : String)
    (opts : sendOptions D) (p : Project D)
    (hload : L.LoadProjectFromDisk opts.projFile true = .ok p) :
    (((invokeSend L reqName opts).err ≠ none ∧
        (invokeSend L reqName opts).sent = none ∧
        (invokeSend L reqName opts).project = some p ∧
        (invokeSend L reqName opts).persisted = none) ↔
      (p.Templates.get? (L.ToLower reqName) = none ∨
        ∃ tmpl, p.Templates.get? (L.ToLower reqName) = some tmpl ∧
          (tmpl.Method = "" ∨ tmpl.URL = ""))) ∧
    (p.Templates.get? (L.ToLower reqName) = none →
      (invokeSend L reqName opts).err =
        some ("no request template " ++ L.ToLower reqName)) ∧
    (∀ tmpl, p.Templates.get? (L.ToLower reqName) = some tmpl → tmpl.Method = "" →
      (invokeSend L reqName opts).err =
        some ("request template " ++ L.ToLower reqName ++ " has no method set")) ∧
    (∀ tmpl, p.Templates.get? (L.ToLower reqName) = some tmpl → tmpl.Method ≠ "" →
      tmpl.URL = "" →
      (invokeSend L reqName opts).err =
        some ("request template " ++ L.ToLower reqName ++ " has no URL set")) ∧
    (∀ tmpl, p.Templates.get? (L.ToLower reqName) = some tmpl → tmpl.Method ≠ "" →
      tmpl.URL ≠ "" →
      (invokeSend L reqName opts).sent = some (sendCallOf tmpl opts) ∧
      (sendCallOf tmpl opts).method = tmpl.Method ∧
      (sendCallOf tmpl opts).url = tmpl.URL) := by
  refine ⟨?_, ?_, ?_, ?_, ?_⟩
  · constructor
    · rintro ⟨_, hsent, _, _⟩
      cases hget : p.Templates.get? (L.ToLower reqName) with
      | none => exact Or.inl rfl
      | some tmpl =>
        refine Or.inr ⟨tmpl, rfl, ?_⟩
        by_contra hne
        push_neg at hne
        have hs : (invokeSend L reqName opts).sent = some (sendCallOf tmpl opts) :=
          (invokeSend_sent_iff L reqName opts _).mpr ⟨p, tmpl, hload, hget, hne.1, hne.2, rfl⟩
        rw [hsent] at hs
        exact Option.noConfusion hs
    · rintro (hget | ⟨tmpl, hget, hm | hu⟩)
      · rw [invokeSend_not_found L reqName opts p hload hget]
        simp
      · rw [invokeSend_no_method L reqName opts p tmpl hload hget hm]
        simp
      · by_cases hm : tmpl.Method = ""
        · rw [invokeSend_no_method L reqName opts p tmpl hload hget hm]
          simp
        · rw [invokeSend_no_url L reqName opts p tmpl hload hget hm hu]
          simp
  · intro hget
    rw [invokeSend_not_found L reqName opts p hload hget]
  · intro tmpl hget hm
    rw [invokeSend_no_method L reqName opts p tmpl hload hget hm]
  · intro tmpl hget hm hu
    rw [invokeSend_no_url L reqName opts p tmpl hload hget hm hu]
  · intro tmpl hget hm hu
    exact ⟨(invokeSend_sent_iff L reqName opts _).mpr ⟨p, tmpl, hload, hget, hm, hu, rfl⟩,
      rfl, rfl⟩

/-- Witness for C3: in the example project the test's template `testreq` (GET,
"/") reaches `Send`, and the template without a method is rejected. -/
theorem invokeSend_validation_witness :
    exampleLib.LoadProjectFromDisk exampleOpts.projFile true = .ok exampleProject ∧
      (invokeSend exampleLib "testreq" exampleOpts).sent =
        some (sendCallOf testreq exampleOpts) ∧
      (invokeSend exampleLib "nomethod" exampleOpts).err =
        some "request template nomethod has no method set" ∧
      (invokeSend exampleLib "absent" exampleOpts).err =
        some "no request template absent" :=
  ⟨rfl,
   ((invokeSend_validation exampleLib "testreq" exampleOpts exampleProject rfl).2.2.2.2
      testreq (by rfl) (by decide) (by decide)).1,
   (invokeSend_validation exampleLib "nomethod" exampleOpts exampleProject rfl).2.2.1
      noMethodReq (by rfl) (by rfl),
   (invokeSend_validation exampleLib "absent" exampleOpts exampleProject rfl).2.1 (by rfl)⟩

/-- Claim C8: template lookup in `invokeSend` is case-insensitive.  Two request
names that are equal after lower-casing give the same run: the same lookup key,
hence the same template resolved, or the same `no request template` error. -/
theorem invokeSend_case_insensitive {D : Decls} (L : Lib D) (n₁ n₂ : String)
    (opts : sendOptions D) (h : L.ToLower n₁ = L.ToLower n₂) :
    invokeSend L n₁ opts = invokeSend L n₂ opts ∧
    ∀ p, L.LoadProjectFromDisk opts.projFile true = .ok p →
      p.Templates.get? (L.ToLower n₁) = p.Templates.get? (L.ToLower n₂) ∧
      (p.Templates.get? (L.ToLower n₁) = none →
        (invokeSend L n₁ opts).err = some ("no request template " ++ L.ToLower n₁) ∧
        (invokeSend L n₂ opts).err = some ("no request template " ++ L.ToLower n₁)) ∧
      (∀ tmpl, p.Templates.get? (L.ToLower n₁) = some tmpl → tmpl.Method ≠ "" →
        tmpl.URL ≠ "" →
        (invokeSend L n₁ opts).sent = some (sendCallOf tmpl opts) ∧
        (invokeSend L n₂ opts).sent = some (sendCallOf tmpl opts)) := by
  have heq : invokeSend L n₁ opts = invokeSend L n₂ opts := by
    unfold invokeSend
    rw [h]
  refine ⟨heq, fun p hload => ⟨by rw [h], ?_, ?_⟩⟩
  · intro hget
    rw [← heq, invokeSend_not_found L n₁ opts p hload hget]
    exact ⟨rfl, rfl⟩
  · intro tmpl hget hm hu
    rw [← heq]
    exact ⟨(invokeSend_sent_iff L n₁ opts _).mpr ⟨p, tmpl, hload, hget, hm, hu, rfl⟩,
      (invokeSend_sent_iff L n₁ opts _).mpr ⟨p, tmpl, hload, hget, hm, hu, rfl⟩⟩

/-- Witness for C8: `TestReq` and `TESTREQ` lower-case to the same key and run
alike. -/
theorem invokeSend_case_insensitive_witness :
    exampleLib.ToLower "TestReq" = exampleLib.ToLower "TESTREQ" ∧
      invokeSend exampleLib "TestReq" exampleOpts =
        invokeSend exampleLib "TESTREQ" exampleOpts :=
  ⟨by decide,
   (invokeSend_case_insensitive exampleLib "TestReq" "TESTREQ" exampleOpts (by decide)).1⟩

/-- Claim C5: when the send of `invokeSend` succeeds and history recording is
enabled, the project history at return, which is also the history handed to
`PersistHistoryToDisk`, is the previous history with exactly one entry appended
at the end; the entry holds the template name and the request time, response
time, request, response and captures of the send result; every earlier entry
keeps its position.  When recording is disabled the project is unchanged and
nothing is persisted. -/
theorem invokeSend_history_on_success {D : Decls} (L : Lib D) (reqName : String)
    (opts : sendOptions D) (p : Project D) (tmpl : RequestTemplate D)
    (result : SendResult D)
    (hload : L.LoadProjectFromDisk opts.projFile true = .ok p)
    (hget : p.Templates.get? (L.ToLower reqName) = some tmpl)
    (hm : tmpl.Method ≠ "") (hu : tmpl.URL ≠ "")
    (hsend : L.Send tmpl.Method tmpl.URL "$" (sendOptsOf tmpl opts) = .ok result) :
    (p.Config.RecordHistory = true →
      ∃ (entry : HistoryEntry D) (p' : Project D),
        (invokeSend L reqName opts).project = some p' ∧
        (invokeSend L reqName opts).persisted = some p' ∧
        p' = { p with History := p.History ++ [entry] } ∧
        p'.History.length = p.History.length + 1 ∧
        (∀ (i : Nat) (hi : i < p.History.length), p'.History[i]? = some p.History[i]) ∧
        p'.History[p.History.length]? = some entry ∧
        entry.Template = tmpl.Name ∧ entry.ReqTime = result.SendTime ∧
        entry.RespTime = result.RecvTime ∧ entry.Request = result.Request ∧
        entry.Response = result.Response ∧ entry.Captures = result.Captures) ∧
    (p.Config.RecordHistory = false →
      (invokeSend L reqName opts).project = some p ∧
      (invokeSend L reqName opts).persisted = none ∧
      (invokeSend L reqName opts).err = none) := by
  have hrun := invokeSend_send_ok L reqName opts p tmpl result hload hget hm hu hsend
  constructor
  · intro hr
    rw [hrun, if_pos hr]
    refine ⟨historyEntryOf tmpl result, _, rfl, rfl, rfl, by simp, ?_, by simp,
      rfl, rfl, rfl, rfl, rfl, rfl⟩
    intro i hi
    simp [List.getElem?_append_left hi, List.getElem?_eq_getElem hi]
  · intro hr
    have hr' : ¬ p.Config.RecordHistory = true := by simp [hr]
    rw [hrun, if_neg hr']
    exact ⟨rfl, rfl, rfl⟩

/-- Witness for C5: sending `testreq` in the example project, which records
history, appends one entry after the one already there. -/
theorem invokeSend_history_on_success_witness :
    ((invokeSend exampleLib "testreq" exampleOpts).project.map (fun p => p.History)) =
        some [oldEntry,
          { Template := "testreq", ReqTime := 10, RespTime := 11, Request := "GET /",
            Response := "200 OK", Captures := [] }] ∧
      ∃ (entry : HistoryEntry D0) (p' : Project D0),
        (invokeSend exampleLib "testreq" exampleOpts).project = some p' ∧
        (invokeSend exampleLib "testreq" exampleOpts).persisted = some p' ∧
        p' = { exampleProject with History := exampleProject.History ++ [entry] } ∧
        p'.History.length = exampleProject.History.length + 1 ∧
        (∀ (i : Nat) (hi : i < exampleProject.History.length),
          p'.History[i]? = some exampleProject.History[i]) ∧
        p'.History[exampleProject.History.length]? = some entry ∧
        entry.Template = testreq.Name ∧ entry.ReqTime = 10 ∧
        entry.RespTime = 11 ∧ entry.Request = "GET /" ∧
        entry.Response = "200 OK" ∧ entry.Captures = [] :=
  ⟨by rfl,
   (invokeSend_history_on_success exampleLib "testreq" exampleOpts exampleProject testreq
      { SendTime := 10, RecvTime := 11, Request := "GET /", Response := "200 OK",
        Captures := [] }
      (by rfl) (by rfl) (by decide) (by decide) (by rfl)).1 (by rfl)⟩

/-- Counterexample to C6: in the example project history recording is on and
the send of `testreq` is executed and fails; no entry is appended, the history
is the one loaded, and nothing is handed to the persistence layer. -/
theorem invokeSend_failed_send_not_recorded :
    exampleProject.Config.RecordHistory = true ∧
      (invokeSend failingLib "testreq" exampleOpts).sent =
        some (sendCallOf testreq exampleOpts) ∧
      (invokeSend failingLib "testreq" exampleOpts).err = some "connection refused" ∧
      (invokeSend failingLib "testreq" exampleOpts).project = some exampleProject ∧
      (invokeSend failingLib "testreq" exampleOpts).persisted = none ∧
      ¬ ∃ entry : HistoryEntry D0,
        (invokeSend failingLib "testreq" exampleOpts).project.map (fun p => p.History) =
          some (exampleProject.History ++ [entry]) := by
  refine ⟨rfl, rfl, rfl, rfl, rfl, ?_⟩
  rintro ⟨entry, h⟩
  have h' : some exampleProject.History = some (exampleProject.History ++ [entry]) := h
  have hlen := congrArg List.length (Option.some.inj h')
  simp at hlen

/-- Claim C6, amended: every send that `invokeSend` executes and that succeeds
appends exactly one entry to the project history when recording is enabled; a
send that fails appends nothing: `invokeSend` returns the error of `Send`, the
project is as loaded and nothing is handed to the persistence layer. -/
theorem invokeSend_history_per_send {D : Decls} (L : Lib D) (reqName : String)
    (opts : sendOptions D) (p : Project D) (call : SendCall D)
    (hload : L.LoadProjectFromDisk opts.projFile true = .ok p)
    (hsent : (invokeSend L reqName opts).sent = some call) :
    (∀ result, L.Send call.method call.url call.varSymbol call.opts = .ok result →
      p.Config.RecordHistory = true →
      ∃ entry : HistoryEntry D,
        (invokeSend L reqName opts).project =
          some { p with History := p.History ++ [entry] } ∧
        (invokeSend L reqName opts).persisted =
          some { p with History := p.History ++ [entry] } ∧
        entry.Request = result.Request ∧ entry.Response = result.Response) ∧
    (∀ e, L.Send call.method call.url call.varSymbol call.opts = .error e →
      (invokeSend L reqName opts).err = some e ∧
      (invokeSend L reqName opts).project = some p ∧
      (invokeSend L reqName opts).persisted = none) := by
  obtain ⟨p', tmpl, hload', hget, hm, hu, hcall⟩ :=
    (invokeSend_sent_iff L reqName opts call).mp hsent
  have hp : p' = p := by
    rw [hload] at hload'
    exact (Except.ok.inj hload').symm
  subst hp
  subst hcall
  constructor
  · intro result hsend hr
    rw [invokeSend_send_ok L reqName opts p' tmpl result hload hget hm hu hsend, if_pos hr]
    exact ⟨historyEntryOf tmpl result, rfl, rfl, rfl, rfl⟩
  · intro e hsend
    rw [invokeSend_send_failed L reqName opts p' tmpl e hload hget hm hu hsend]
    exact ⟨rfl, rfl, rfl⟩

/-- Witness for C6 as amended: the failing send of `testreq` returns the error
of `Send` and leaves the project as loaded. -/
theorem invokeSend_history_per_send_witness :
    failingLib.LoadProjectFromDisk exampleOpts.projFile true = .ok exampleProject ∧
      (invokeSend failingLib "testreq" exampleOpts).sent =
        some (sendCallOf testreq exampleOpts) ∧
      (invokeSend failingLib "testreq" exampleOpts).err = some "connection refused" ∧
      (invokeSend failingLib "testreq" exampleOpts).project = some exampleProject ∧
      (invokeSend failingLib "testreq" exampleOpts).persisted = none :=
  ⟨rfl, rfl,
   (invokeSend_history_per_send failingLib "testreq" exampleOpts exampleProject
      (sendCallOf testreq exampleOpts) rfl rfl).2 "connection refused" rfl⟩

/-- Counterexample to C4: the example project persists `HOST`, no one-time
override is given, and the bindings handed to `Send` have no value for `HOST`:
the persisted variable is not visible to the send. -/
theorem invokeSend_persisted_var_not_supplied :
    D0.VarStoreGet exampleProject.Vars "HOST" = some "example.org" ∧
      exampleOpts.oneTimeVars.get? "HOST" = none ∧
      (invokeSend exampleLib "testreq" exampleOpts).sent =
        some (sendCallOf testreq exampleOpts) ∧
      (sendCallOf testreq exampleOpts).opts.Vars.get? "HOST" = none ∧
      (sendCallOf testreq exampleOpts).opts.Vars.get? "HOST" ≠
        D0.VarStoreGet exampleProject.Vars "HOST" := by
  refine ⟨rfl, rfl, rfl, rfl, ?_⟩
  intro h
  have h' : (none : Option String) = some "example.org" := h
  exact Option.noConfusion h'

/-- Claim C4, amended: the variable bindings that `invokeSend` supplies to
`Send` are exactly the one-time overrides: every name resolves to its one-time
override when one is given and to nothing otherwise.  The persisted store
`p.Vars` is not supplied: replacing it by any other store leaves the call to
`Send` the same. -/
theorem invokeSend_vars_are_overrides {D : Decls} (L : Lib D) (reqName : String)
    (opts : sendOptions D) (call : SendCall D)
    (hsent : (invokeSend L reqName opts).sent = some call) :
    call.opts.Vars = opts.oneTimeVars ∧
    (∀ name, call.opts.Vars.get? name = opts.oneTimeVars.get? name) ∧
    (∀ vars : D.VarStore, (invokeSend (L.withVars vars) reqName opts).sent = some call) := by
  obtain ⟨p, tmpl, hload, hget, hm, hu, hcall⟩ :=
    (invokeSend_sent_iff L reqName opts call).mp hsent
  subst hcall
  refine ⟨rfl, fun _ => rfl, ?_⟩
  intro vars
  refine (invokeSend_sent_iff (L.withVars vars) reqName opts _).mpr
    ⟨{ p with Vars := vars }, tmpl, ?_, hget, hm, hu, rfl⟩
  simp [Lib.withVars, hload]

/-- Witness for C4 as amended: with the override `HOST:localhost` the send sees
`localhost`, whatever the project persists. -/
theorem invokeSend_vars_are_overrides_witness :
    (invokeSend exampleLib "testreq" overrideOpts).sent =
        some (sendCallOf testreq overrideOpts) ∧
      (sendCallOf testreq overrideOpts).opts.Vars.get? "HOST" = some "localhost" ∧
      (sendCallOf testreq overrideOpts).opts.Vars.get? "PORT" = none ∧
      (∀ vars : D0.VarStore,
        (invokeSend (exampleLib.withVars vars) "testreq" overrideOpts).sent =
          some (sendCallOf testreq overrideOpts)) :=
  ⟨rfl, rfl, rfl,
   (invokeSend_vars_are_overrides exampleLib "testreq" overrideOpts
      (sendCallOf testreq overrideOpts) rfl).2.2⟩

/-! ### `sendFlagsToOptions` -/

theorem cutAt_eq_none_iff (sep : Char) (l : List Char) :
    cutAt sep l = none ↔ sep ∉ l := by
  induction l with
  | nil => simp [cutAt]
  | cons c cs ih =>
    by_cases h : c = sep
    · simp [cutAt, h]
    · have h' : ¬ sep = c := fun e => h e.symm
      simp [cutAt, h, h', ih]

theorem cutAt_eq_some_iff (sep : Char) (l a b : List Char) :
    cutAt sep l = some (a, b) ↔ l = a ++ sep :: b ∧ sep ∉ a := by
  induction l generalizing a with
  | nil => simp [cutAt]
  | cons c cs ih =>
    by_cases h : c = sep
    · subst h
      simp only [cutAt, if_true, Option.some.injEq, Prod.mk.injEq]
      constructor
      · rintro ⟨rfl, rfl⟩
        simp
      · rintro ⟨heq, hnot⟩
        cases a with
        | nil => simpa using heq
        | cons x xs =>
          simp only [List.cons_append, List.cons.injEq] at heq
          exact absurd (heq.1 ▸ List.mem_cons_self _ _) hnot
    · simp only [cutAt, h, if_false, Option.map_eq_some', Prod.mk.injEq, Prod.exists]
      constructor
      · rintro ⟨a', b', hcut, rfl, rfl⟩
        obtain ⟨heq, hnot⟩ := (ih a').mp hcut
        refine ⟨by simp [heq], ?_⟩
        simp only [List.mem_cons, not_or]
        exact ⟨fun e => h e.symm, hnot⟩
      · rintro ⟨heq, hnot⟩
        cases a with
        | nil =>
          simp only [List.nil_append, List.cons.injEq] at heq
          exact absurd heq.1 h
        | cons x xs =>
          simp only [List.cons_append, List.cons.injEq] at heq
          simp only [List.mem_cons, not_or] at hnot
          exact ⟨xs, b, (ih xs).mpr ⟨heq.2, hnot.2⟩, by rw [heq.1], rfl⟩

theorem setList_lookup {α : Type} (l : List (String × α)) (k k' : String) (v : α) :
    (GoMap.setList l k v).lookup k' = if k' = k then some v else l.lookup k' := by
  induction l with
  | nil =>
    by_cases h : k' = k
    · simp [GoMap.setList, List.lookup, h]
    · have hb : (k' == k) = false := by simpa using h
      simp [GoMap.setList, List.lookup, h, hb]
  | cons p rest ih =>
    obtain ⟨k₀, v₀⟩ := p
    by_cases h0 : k₀ = k
    · subst h0
      by_cases h : k' = k₀
      · simp [GoMap.setList, List.lookup, h]
      · have hb : (k' == k₀) = false := by simpa using h
        simp [GoMap.setList, List.lookup, h, hb]
    · by_cases h : k' = k₀
      · subst h
        simp [GoMap.setList, List.lookup, h0]
      · have hb : (k' == k₀) = false := by simpa using h
        simp [GoMap.setList, List.lookup, h0, hb, ih]

/-- Reading a map after the assignment `m[k] = v`. -/
theorem GoMap.get?_set {α : Type} (m : GoMap α) (k k' : String) (v : α) :
    (m.set k v).get? k' = if k' = k then some v else m.get? k' :=
  setList_lookup m.entries k k' v

theorem SplitN2_of_cut (v : String) (a b : List Char)
    (h : cutAt ':' v.data = some (a, b)) :
    SplitN2 v ':' = [String.mk a, String.mk b] := by
  simp [SplitN2, h]

theorem SplitN2_of_no_cut (v : String) (h : cutAt ':' v.data = none) :
    SplitN2 v ':' = [v] := by
  simp [SplitN2, h]

/-- The loop stops at the first argument without a colon and reports it with
its 1-based position. -/
theorem varsLoop_error {D : Decls} (L : Lib D) (pre : List String) (v : String)
    (post : List String) (idx : Nat) (m : GoMap String)
    (hpre : ∀ w ∈ pre, ':' ∈ w.data) (hv : ':' ∉ v.data) :
    varsLoop L (pre ++ v :: post) idx m =
      .error ("var #" ++ toString (idx + pre.length + 1) ++ " (" ++ L.Quote v ++
        ") is not in format key:value") := by
  induction pre generalizing idx m with
  | nil =>
    have hcut : cutAt ':' v.data = none := (cutAt_eq_none_iff ':' v.data).mpr hv
    simp [varsLoop, SplitN2_of_no_cut v hcut]
  | cons w pre ih =>
    have hw : ':' ∈ w.data := hpre w (List.mem_cons_self _ _)
    cases hcut : cutAt ':' w.data with
    | none => exact absurd hw ((cutAt_eq_none_iff ':' w.data).mp hcut)
    | some ab =>
      obtain ⟨a, b⟩ := ab
      have hrest : ∀ x ∈ pre, ':' ∈ x.data := fun x hx => hpre x (List.mem_cons_of_mem _ hx)
      have h2 := ih (idx + 1) (m.set (String.mk a) (String.mk b)) hrest
      simp only [List.cons_append, varsLoop, SplitN2_of_cut w a b hcut, List.length_cons]
      rw [show idx + (pre.length + 1) + 1 = idx + 1 + pre.length + 1 by omega]
      exact h2

/-- When every argument has a colon the loop succeeds, and the map it returns
binds a name to its last binding among the arguments, or else to what the map
held before. -/
theorem varsLoop_ok {D : Decls} (L : Lib D) (vs : List String) (idx : Nat)
    (m : GoMap String) (hall : ∀ w ∈ vs, ':' ∈ w.data) :
    ∃ m', varsLoop L vs idx m = .ok m' ∧
      ∀ name, m'.get? name =
        match lastBinding vs name with
        | some value => some value
        | none => m.get? name := by
  induction vs generalizing idx m with
  | nil => exact ⟨m, rfl, fun _ => rfl⟩
  | cons w rest ih =>
    have hw : ':' ∈ w.data := hall w (List.mem_cons_self _ _)
    have hrest : ∀ x ∈ rest, ':' ∈ x.data := fun x hx => hall x (List.mem_cons_of_mem _ hx)
    cases hcut : cutAt ':' w.data with
    | none => exact absurd hw ((cutAt_eq_none_iff ':' w.data).mp hcut)
    | some ab =>
      obtain ⟨a, b⟩ := ab
      obtain ⟨m', hm', hget⟩ := ih (idx + 1) (m.set (String.mk a) (String.mk b)) hrest
      refine ⟨m', ?_, ?_⟩
      · simp only [varsLoop, SplitN2_of_cut w a b hcut]
        exact hm'
      · intro name
        rw [hget name]
        simp only [lastBinding, hcut]
        cases lastBinding rest name with
        | some value => rfl
        | none =>
          simp only [GoMap.get?_set]
          by_cases hn : name = String.mk a
          · simp [hn]
          · have hn' : ¬ String.mk a = name := fun e => hn e.symm
            simp [hn, hn']

/-- No argument of `vs` carries `name`. -/
theorem lastBinding_eq_none_iff (vs : List String) (name : String) :
    lastBinding vs name = none ↔
      ∀ w ∈ vs, ∀ rest : List Char, w.data ≠ name.data ++ ':' :: rest ∨ ':' ∈ name.data := by
  induction vs with
  | nil => simp [lastBinding]
  | cons v rest ih =>
    simp only [lastBinding, List.mem_cons, forall_eq_or_imp]
    cases hl : lastBinding rest name with
    | some value =>
      refine ⟨fun h => Option.noConfusion h, fun h => ?_⟩
      rw [ih.mpr h.2] at hl
      exact Option.noConfusion hl
    | none =>
      have hrest := ih.mp hl
      cases hcut : cutAt ':' v.data with
      | none =>
        have hno : ':' ∉ v.data := (cutAt_eq_none_iff ':' v.data).mp hcut
        simp only [true_iff]
        refine ⟨fun r => Or.inl ?_, hrest⟩
        intro heq
        exact hno (by rw [heq]; simp)
      | some ab =>
        obtain ⟨a, b⟩ := ab
        obtain ⟨heq, hnot⟩ := (cutAt_eq_some_iff ':' v.data a b).mp hcut
        by_cases hn : String.mk a = name
        · subst hn
          simp only [if_true]
          refine ⟨fun h => Option.noConfusion h, fun h => ?_⟩
          rcases h.1 b with h1 | h1
          · exact absurd heq h1
          · exact absurd h1 hnot
        · simp only [hn, if_false, true_iff]
          refine ⟨fun r => ?_, hrest⟩
          by_cases hc : ':' ∈ name.data
          · exact Or.inr hc
          · refine Or.inl ?_
            intro heq'
            have hcut' : cutAt ':' v.data = some (name.data, r) :=
              (cutAt_eq_some_iff ':' v.data name.data r).mpr ⟨heq', hc⟩
            rw [hcut] at hcut'
            have ha : a = name.data := (Prod.mk.inj (Option.some.inj hcut')).1
            exact hn (by rw [ha])

/-- The last binding of `name` is the value of the last argument that splits,
at its first colon, into `name` and that value. -/
theorem lastBinding_eq_some_iff (vs : List String) (name value : String) :
    lastBinding vs name = some value ↔
      ∃ (pre : List String) (v : String) (post : List String),
        vs = pre ++ v :: post ∧ v.data = name.data ++ ':' :: value.data ∧
        ':' ∉ name.data ∧
        ∀ w ∈ post, ∀ rest : List Char, w.data ≠ name.data ++ ':' :: rest := by
  induction vs with
  | nil => simp [lastBinding]
  | cons v₀ rest ih =>
    constructor
    · intro h
      simp only [lastBinding] at h
      cases hl : lastBinding rest name with
      | some x =>
        rw [hl] at h
        have hx : x = value := Option.some.inj h
        subst hx
        obtain ⟨pre, v, post, hvs, hv, hn, hpost⟩ := ih.mp hl
        exact ⟨v₀ :: pre, v, post, by rw [hvs]; rfl, hv, hn, hpost⟩
      | none =>
        rw [hl] at h
        cases hcut : cutAt ':' v₀.data with
        | none =>
          rw [hcut] at h
          exact Option.noConfusion h
        | some ab =>
          obtain ⟨a, b⟩ := ab
          rw [hcut] at h
          by_cases hn : String.mk a = name
          · simp only [hn, if_true] at h
            have hb : String.mk b = value := Option.some.inj h
            obtain ⟨heq, hnot⟩ := (cutAt_eq_some_iff ':' v₀.data a b).mp hcut
            subst hn
            subst hb
            refine ⟨[], v₀, rest, rfl, heq, hnot, ?_⟩
            intro w hw r
            rcases (lastBinding_eq_none_iff rest (String.mk a)).mp hl w hw r with h1 | h1
            · exact h1
            · exact absurd h1 hnot
          · simp only [hn, if_false] at h
            exact Option.noConfusion h
    · rintro ⟨pre, v, post, hvs, hv, hn, hpost⟩
      cases pre with
      | nil =>
        simp only [List.nil_append, List.cons.injEq] at hvs
        obtain ⟨h1, h2⟩ := hvs
        subst h1
        subst h2
        have hl : lastBinding rest name = none :=
          (lastBinding_eq_none_iff rest name).mpr (fun w hw r => Or.inl (hpost w hw r))
        have hcut : cutAt ':' v₀.data = some (name.data, value.data) :=
          (cutAt_eq_some_iff ':' v₀.data name.data value.data).mpr ⟨hv, hn⟩
        simp [lastBinding, hl, hcut]
      | cons x pre =>
        simp only [List.cons_append, List.cons.injEq] at hvs
        obtain ⟨_, h2⟩ := hvs
        have hl : lastBinding rest name = some value :=
          ih.mpr ⟨pre, v, post, h2, hv, hn, hpost⟩
        simp [lastBinding, hl]

/-- A list with an argument that has no colon splits at the first such
argument. -/
theorem exists_first_without_colon (vs : List String)
    (h : ∃ v ∈ vs, ':' ∉ v.data) :
    ∃ (pre : List String) (v : String) (post : List String),
      vs = pre ++ v :: post ∧ (∀ w ∈ pre, ':' ∈ w.data) ∧ ':' ∉ v.data := by
  induction vs with
  | nil =>
    obtain ⟨v, hv, _⟩ := h
    exact absurd hv (List.not_mem_nil v)
  | cons x rest ih =>
    by_cases hx : ':' ∈ x.data
    · obtain ⟨v, hv, hno⟩ := h
      have hv' : v ∈ rest := by
        rcases List.mem_cons.mp hv with e | e
        · subst e
          exact absurd hx hno
        · exact e
      obtain ⟨pre, w, post, hvs, hpre, hw⟩ := ih ⟨v, hv', hno⟩
      refine ⟨x :: pre, w, post, by rw [hvs]; rfl, ?_, hw⟩
      intro y hy
      rcases List.mem_cons.mp hy with e | e
      · subst e
        exact hx
      · exact hpre y e
    · exact ⟨[], x, rest, rfl, fun _ hw => absurd hw (List.not_mem_nil _), hx⟩

/-- The function `sendFlagsToOptions` once the project file name and the output
flags have passed their checks. -/
theorem sendFlagsToOptions_of_valid {D : Decls} (L : Lib D) (flagProjectFile : String)
    (flagVars : List String) (outputCtrl : D.OutputControl)
    (hp : flagProjectFile ≠ "")
    (ho : L.gatherRequestOutputFlags "suyac send" = .ok outputCtrl) :
    sendFlagsToOptions L flagProjectFile flagVars =
      match varsLoop L flagVars 0 GoMap.empty with
      | .error err => .error err
      | .ok oneTimeVars =>
        .ok { projFile := flagProjectFile, oneTimeVars := oneTimeVars,
              outputCtrl := outputCtrl } := by
  cases flagVars with
  | nil => simp [sendFlagsToOptions, hp, ho, varsLoop]
  | cons v rest => simp [sendFlagsToOptions, hp, ho]

/-- Counterexample to C7: with an empty project file name the function fails
although every `--var` argument has a colon and the output flags are valid. -/
theorem sendFlagsToOptions_empty_project_file :
    exampleLib.gatherRequestOutputFlags "suyac send" = .ok false ∧
      (∀ v ∈ ["a:b"], ':' ∈ v.data) ∧
      sendFlagsToOptions exampleLib "" ["a:b"] =
        .error "project file is set to empty string" ∧
      ¬ ((∃ err, sendFlagsToOptions exampleLib "" ["a:b"] = .error err) ↔
          ∃ v ∈ ["a:b"], ':' ∉ v.data) := by
  refine ⟨rfl, by decide, rfl, ?_⟩
  intro h
  obtain ⟨v, hv, hno⟩ := h.mp ⟨_, rfl⟩
  simp only [List.mem_singleton] at hv
  subst hv
  exact hno (by decide)

/-- Claim C7, amended: with a non-empty project file name and valid output
flags, `sendFlagsToOptions` fails if and only if some `--var` argument has no
colon, and the error names the first such argument with its 1-based position.
Otherwise it succeeds, and the one-time variable map binds `name` to `value`
exactly when some argument is `name`, a colon, `value`, with no colon in `name`
(the split at the first colon; the value may hold colons and either part may be
empty), and no later argument splits into the same name. -/
theorem sendFlagsToOptions_vars {D : Decls} (L : Lib D) (flagProjectFile : String)
    (flagVars : List String) (outputCtrl : D.OutputControl)
    (hp : flagProjectFile ≠ "")
    (ho : L.gatherRequestOutputFlags "suyac send" = .ok outputCtrl) :
    ((∃ err, sendFlagsToOptions L flagProjectFile flagVars = .error err) ↔
      ∃ v ∈ flagVars, ':' ∉ v.data) ∧
    (∀ (pre : List String) (v : String) (post : List String),
      flagVars = pre ++ v :: post → (∀ w ∈ pre, ':' ∈ w.data) → ':' ∉ v.data →
      sendFlagsToOptions L flagProjectFile flagVars =
        .error ("var #" ++ toString (pre.length + 1) ++ " (" ++ L.Quote v ++
          ") is not in format key:value")) ∧
    ((∀ v ∈ flagVars, ':' ∈ v.data) →
      ∃ o : sendOptions D,
        sendFlagsToOptions L flagProjectFile flagVars = .ok o ∧
        o.projFile = flagProjectFile ∧ o.outputCtrl = outputCtrl ∧
        ∀ name value : String,
          o.oneTimeVars.get? name = some value ↔
            ∃ (pre : List String) (v : String) (post : List String),
              flagVars = pre ++ v :: post ∧
              v.data = name.data ++ ':' :: value.data ∧ ':' ∉ name.data ∧
              ∀ w ∈ post, ∀ rest : List Char, w.data ≠ name.data ++ ':' :: rest) := by
  have hval := sendFlagsToOptions_of_valid L flagProjectFile flagVars outputCtrl hp ho
  have herr : ∀ (pre : List String) (v : String) (post : List String),
      flagVars = pre ++ v :: post → (∀ w ∈ pre, ':' ∈ w.data) → ':' ∉ v.data →
      sendFlagsToOptions L flagProjectFile flagVars =
        .error ("var #" ++ toString (pre.length + 1) ++ " (" ++ L.Quote v ++
          ") is not in format key:value") := by
    intro pre v post hvs hpre hv
    rw [hval, hvs, varsLoop_error L pre v post 0 GoMap.empty hpre hv]
    simp
  have hok : (∀ v ∈ flagVars, ':' ∈ v.data) →
      ∃ o : sendOptions D,
        sendFlagsToOptions L flagProjectFile flagVars = .ok o ∧
        o.projFile = flagProjectFile ∧ o.outputCtrl = outputCtrl ∧
        ∀ name value : String,
          o.oneTimeVars.get? name = some value ↔
            ∃ (pre : List String) (v : String) (post : List String),
              flagVars = pre ++ v :: post ∧
              v.data = name.data ++ ':' :: value.data ∧ ':' ∉ name.data ∧
              ∀ w ∈ post, ∀ rest : List Char, w.data ≠ name.data ++ ':' :: rest := by
    intro hall
    obtain ⟨m', hm', hget⟩ := varsLoop_ok L flagVars 0 GoMap.empty hall
    refine ⟨{ projFile := flagProjectFile, oneTimeVars := m', outputCtrl := outputCtrl },
      ?_, rfl, rfl, ?_⟩
    · rw [hval, hm']
    · intro name value
      rw [← lastBinding_eq_some_iff]
      show m'.get? name = some value ↔ _
      rw [hget name]
      cases lastBinding flagVars name with
      | some x => rfl
      | none => simp [GoMap.get?, GoMap.empty]
  refine ⟨⟨?_, ?_⟩, herr, hok⟩
  · rintro ⟨err, he⟩
    by_contra hno
    push_neg at hno
    obtain ⟨o, ho', _⟩ := hok hno
    rw [ho'] at he
    exact Except.noConfusion he
  · intro hex
    obtain ⟨pre, v, post, hvs, hpre, hv⟩ := exists_first_without_colon flagVars hex
    exact ⟨_, herr pre v post hvs hpre hv⟩

/-- Witness for C7 as amended: of the arguments `a:1`, `b::x`, `a:2:3` the map
binds `a` to `2:3` and `b` to `:x`; with `justname` in second place the error
names argument 2. -/
theorem sendFlagsToOptions_vars_witness :
    (".suyac/project.json" ≠ "" ∧
      exampleLib.gatherRequestOutputFlags "suyac send" = .ok false) ∧
      (sendFlagsToOptions exampleLib ".suyac/project.json" ["a:1", "justname", "c"] =
        .error "var #2 (\"justname\") is not in format key:value") ∧
      ((sendFlagsToOptions exampleLib ".suyac/project.json" ["a:1", "b::x", "a:2:3"]).toOption.map
          (fun o => (o.oneTimeVars.get? "a", o.oneTimeVars.get? "b", o.oneTimeVars.get? "c")) =
        some (some "2:3", some ":x", none)) :=
  ⟨⟨by decide, rfl⟩,
   (sendFlagsToOptions_vars exampleLib ".suyac/project.json" ["a:1", "justname", "c"] false
      (by decide) rfl).2.1 ["a:1"] "justname" ["c"] rfl (by decide) (by decide),
   by rfl⟩

/-! ### The flows command -/

/-- Printing one line per name appends the lines, in order, to the output. -/
theorem foldl_Printf {D : Decls} (L : Lib D) (p : Project D) (names : List String)
    (io : cmdio.Streams) :
    names.foldl (fun io name => io.Printf (flowLine L p name)) io =
      { io with Out := io.Out ++ concatLines (names.map (flowLine L p)) } := by
  induction names generalizing io with
  | nil => simp [concatLines]
  | cons n ns ih =>
    simp only [List.foldl_cons, List.map_cons, concatLines]
    rw [ih]
    simp [cmdio.Streams.Printf, String.append_assoc]

/-- The shape of the line printed for a flow that is in the map. -/
theorem flowLine_shape {D : Decls} (L : Lib D) (p : Project D) (name : String)
    (f : Flow D) (hf : p.Flows.get? name = some f) :
    ∃ bang s : String,
      flowLine L p name =
        f.Name ++ ":" ++ bang ++ " " ++ toString f.Steps.length ++ " request" ++ s ++ "\n" ∧
      (s = "" ↔ f.Steps.length = 1) ∧ (s = "" ∨ s = "s") ∧
      (bang = "!" ↔ L.IsExecableFlow p name = false) ∧ (bang = "" ∨ bang = "!") := by
  refine ⟨if !L.IsExecableFlow p name then "!" else "",
    if f.Steps.length = 1 then "" else "s", ?_, ?_, ?_, ?_, ?_⟩
  · simp [flowLine, GoMap.getD, hf]
  · by_cases h : f.Steps.length = 1
    · simp [h]
    · simp only [h, if_false, iff_false]
      decide
  · by_cases h : f.Steps.length = 1
    · simp [h]
    · simp [h]
  · cases h : L.IsExecableFlow p name with
    | true =>
      simp only [Bool.not_true, if_false, iff_false]
      exact ⟨by decide, Bool.noConfusion⟩
    | false => simp
  · cases h : L.IsExecableFlow p name <;> simp

/-- Claim C10: for a loaded project `invokeFlowsList` returns no error and
prints, after what the output stream already holds, exactly the line `(none)`
when the project has no flows, and otherwise exactly one line per flow, in
strictly ascending lexical order of the map keys, each made of the flow's name,
a colon, a bang if and only if the flow is not execable, a space, the step count,
the word `request`, and an `s` unless the step count is 1. -/
theorem invokeFlowsList_output {D : Decls} (L : Lib D) (io : cmdio.Streams)
    (opts : flowOptions) (p : Project D)
    (hload : L.LoadProjectFromDisk opts.projFile false = .ok p) :
    (invokeFlowsList L io opts).err = none ∧
    (invokeFlowsList L io opts).io.Err = io.Err ∧
    (p.Flows.len = 0 → (invokeFlowsList L io opts).io.Out = io.Out ++ "(none)\n") ∧
    (p.Flows.len ≠ 0 →
      ∃ names : List String,
        names.Perm p.Flows.keys ∧ names.Sorted strLT ∧ names.length = p.Flows.len ∧
        (invokeFlowsList L io opts).io.Out =
          io.Out ++ concatLines (names.map (flowLine L p)) ∧
        ∀ name ∈ names, ∃ (f : Flow D) (bang s : String),
          p.Flows.get? name = some f ∧
          flowLine L p name =
            f.Name ++ ":" ++ bang ++ " " ++ toString f.Steps.length ++ " request" ++ s
              ++ "\n" ∧
          (s = "" ↔ f.Steps.length = 1) ∧ (s = "" ∨ s = "s") ∧
          (bang = "!" ↔ L.IsExecableFlow p name = false) ∧ (bang = "" ∨ bang = "!")) := by
  refine ⟨by simp [invokeFlowsList, hload], ?_, ?_, ?_⟩
  · by_cases h0 : p.Flows.len = 0
    · simp [invokeFlowsList, hload, h0, cmdio.Streams.Println]
    · simp [invokeFlowsList, hload, h0, foldl_Printf]
  · intro h0
    simp only [invokeFlowsList, hload, h0, if_true, cmdio.Streams.Println]
    rw [String.append_assoc]
    rfl
  · intro h0
    refine ⟨sortStrings p.Flows.keys, sortStrings_perm _, sortStrings_strict p.Flows.nodup,
      ?_, ?_, ?_⟩
    · simpa [GoMap.keys, GoMap.len] using (sortStrings_perm p.Flows.keys).length_eq
    · simp [invokeFlowsList, hload, h0, foldl_Printf]
    · intro name hname
      have hk : name ∈ p.Flows.keys := (sortStrings_perm _).mem_iff.mp hname
      obtain ⟨e, he, rfl⟩ := List.mem_map.mp hk
      have hf : p.Flows.get? e.1 = some e.2 := (p.Flows.get?_eq_some_iff e.1 e.2).mpr he
      obtain ⟨bang, s, h1, h2, h3, h4, h5⟩ := flowLine_shape L p e.1 e.2 hf
      exact ⟨e.2, bang, s, hf, h1, h2, h3, h4, h5⟩

/-- Witness for C10: the example project has the flows `solo` (one step that is
a template) and `f` (five steps that are not); the listing is sorted by key. -/
theorem invokeFlowsList_output_witness :
    exampleLib.LoadProjectFromDisk exampleFlowOpts.projFile false = .ok exampleProject ∧
      (invokeFlowsList exampleLib emptyStreams exampleFlowOpts).io.Out =
        "f:! 5 requests\nsolo: 1 request\n" ∧
      (invokeFlowsList exampleLib emptyStreams exampleFlowOpts).err = none ∧
      (invokeFlowsList exampleLib emptyStreams exampleFlowOpts).io.Err = "" :=
  ⟨rfl, by rfl,
   (invokeFlowsList_output exampleLib emptyStreams exampleFlowOpts exampleProject rfl).1,
   (invokeFlowsList_output exampleLib emptyStreams exampleFlowOpts exampleProject rfl).2.1⟩

/-- Claim C2, evaluated on the code: the `RunE` function of the flows command
never reads the step-mutation flags, so its run is the same whatever they hold.
For `--remove 3 --remove 1 --add 0:X --move 2:0` on the example project, whose
flow `f` has the steps A, B, C, D, E, the command lists the flows, writes no
project, and the steps of `f` stay A, B, C, D, E, whereas the compound edit that
the flag help and the specification describe yields C, X, A, E. -/
theorem FlowCmd_RunE_ignores_step_mutations :
    (∀ (D : Decls) (L : Lib D) (flags : FlowFlags) (args : List String)
        (io : cmdio.Streams) (removals : List Int) (adds moves : List String),
        FlowCmd_RunE L { flags with flagFlowStepRemovals := removals,
                                    flagFlowStepAdds := adds,
                                    flagFlowStepMoves := moves } args io =
          FlowCmd_RunE L flags args io ∧
        (FlowCmd_RunE L flags args io).saved = none) ∧
      (FlowCmd_RunE exampleLib editFlags [] emptyStreams).err = none ∧
      (FlowCmd_RunE exampleLib editFlags [] emptyStreams).io.Out =
        "f:! 5 requests\nsolo: 1 request\n" ∧
      (FlowCmd_RunE exampleLib editFlags [] emptyStreams).saved = none ∧
      ((FlowCmd_RunE exampleLib editFlags [] emptyStreams).project.bind
          (fun p => p.Flows.get? "f")).map (fun f => f.Steps) =
        some ["A", "B", "C", "D", "E"] ∧
      specCompoundEdit ["A", "B", "C", "D", "E"] [3, 1] [(some 0, "X")] [(2, 0)] =
        some ["C", "X", "A", "E"] ∧
      specCompoundEdit ["A", "B", "C", "D", "E"] [3, 1] [] [] = some ["A", "C", "E"] ∧
      specCompoundEdit ["A", "B", "C", "D", "E"] [3, 1] [(some 0, "X")] [] =
        some ["X", "A", "C", "E"] := by
  refine ⟨?_, rfl, by rfl, rfl, by rfl, by decide, by decide, by decide⟩
  intro D L flags args io removals adds moves
  refine ⟨rfl, ?_⟩
  unfold FlowCmd_RunE invokeFlowsList
  by_cases hp : flags.ProjectFile = ""
  · simp [hp]
  · cases hload : L.LoadProjectFromDisk flags.ProjectFile false <;> simp [hp, hload]

/-- Claim C9: for every count, word and suffix list, `IO.CountOf` returns the
decimal count, one space, and the word followed by the singular suffix exactly
when the count is 1 and by the plural suffix otherwise (0 and negative counts
included); the plural suffix is the first given suffix, defaulting to "s", and
the singular suffix is the second given suffix, defaulting to the empty
string. -/
theorem countOf_spec (count : Int) (word : String) (suffixes : List String) :
    cmdio.CountOf count word suffixes =
        toString count ++ " " ++
          (word ++ if count = 1 then suffixes.getD 1 "" else suffixes.getD 0 "s")
      ∧ cmdio.CountOf 1 "request" [] = "1 request"
      ∧ cmdio.CountOf 0 "request" [] = "0 requests"
      ∧ cmdio.CountOf (-2) "request" [] = "-2 requests"
      ∧ cmdio.CountOf 1 "entr" ["ies", "y"] = "1 entry"
      ∧ cmdio.CountOf 3 "entr" ["ies", "y"] = "3 entries"
      ∧ cmdio.CountOf 1 "box" ["es"] = "1 box" := by
  refine ⟨?_, by decide, by decide, by decide, by decide, by decide, by decide⟩
  unfold cmdio.CountOf
  cases suffixes with
  | nil => by_cases h : count = 1 <;> simp [h]
  | cons p rest =>
    cases rest with
    | nil => by_cases h : count = 1 <;> simp [h]
    | cons s rest => by_cases h : count = 1 <;> simp [h]

end Suyac
